import Mathlib

/-!
# A verification development for the `simplex.py` tableau solver

This file gives a shallow embedding of the simplex solver of `simplex.py`
(the class `linprog` together with its driver `main`) and proves properties
of it.

Modelling conventions, fixed once and used throughout:

* numpy `float64` values are modelled by exact rationals `ℚ`, the idealized
  real arithmetic that the program's own documentation speaks about
  ("real matrix", "within floating tolerance").  Where a difference between
  `ℚ` and IEEE floats could matter (division by a zero entry yields `0` in
  `ℚ` but `inf`/`nan` in numpy) the theorems carry explicit nonzero-entry
  hypotheses so that only the faithful fragment is claimed.
* a line of the input text is modelled by its list of space-separated
  tokens, i.e. by the Python value `line.split(' ')` (note that
  `str.split(' ')` with an explicit separator keeps empty chunks, exactly
  as `String.splitOn " "` does, so the token list determines the line).
  `funcline.startswith('max ')` holds iff the token list has head `"max"`
  and at least two tokens, which is how the mode test is rendered below.
* Python exceptions are modelled by an error sum type returned through
  `Except`/`Option`; an uncaught exception of the iteration driver is a
  distinguished result constructor.
* the iteration order of a Python `set` of small ints is not specified by
  the language; the embedding iterates sets in ascending order.  Every
  theorem below that touches such an iteration either does not depend on
  the order (the scanned predicate holds for at most one element) or
  quantifies over the position handed to `random.choice`.
-/

namespace Simplex

/-- The exceptions the constructor can raise: `BadFormatError` (the class
defined in the source), `ValueError` from `float(...)` on a malformed
literal, `IndexError` from `vals[-1]`/`vals[-2]` on a too-short line, and
the numpy `ValueError` raised by `reshape` when the flat coefficient list
does not have `rows * len(c)` entries.  The two `ValueError`s are kept
apart because the claims distinguish the reshape failure. -/
inductive PyError where
  | badFormat
  | valueError
  | indexError
  | reshapeError
  deriving DecidableEq, Repr

/-- `MAX_MODE` / `MIN_MODE`. -/
inductive Mode where
  | maxMode
  | minMode
  deriving DecidableEq, Repr

/-- The state of a `linprog` object: row count, objective coefficients `c`,
the flat constraint matrix `A` (row-major, as fed to `reshape`), the
right-hand sides `b`, the mode, the set `basic_cols`, and the tableau as a
list of rows. -/
structure Linprog where
  rows : ℕ
  c : List ℚ
  A : List ℚ
  b : List ℚ
  mode : Mode
  basic_cols : Finset ℕ
  tab : List (List ℚ)
  deriving DecidableEq

/-- `self.cols = len(self.c) + self.rows`. -/
def Linprog.cols (lp : Linprog) : ℕ := lp.c.length + lp.rows

/-- Entry `tab[i, j]` of a tableau (out-of-range indices default to `0`;
the theorems that need the true numpy shape carry the `WF` invariant). -/
def ent (tab : List (List ℚ)) (i j : ℕ) : ℚ := (tab.getD i []).getD j 0

/-- Negative index `-1`: `row[-1]`, the last entry of a tableau row. -/
def rowLast (r : List ℚ) : ℚ := r.getD (r.length - 1) 0

/-- Value of a decimal digit character. -/
def digitVal (ch : Char) : ℕ := ch.toNat - 48

/-- Natural number denoted by a digit string (`none` if a non-digit
occurs; the empty chunk denotes `0` and emptiness is policed by the
caller, matching `float("1.")` and `float(".5")` being legal). -/
def chunkNat (l : List Char) : Option ℕ :=
  if l.all (fun ch => ch.isDigit) then
    some (l.foldl (fun a ch => 10 * a + digitVal ch) 0)
  else none

/-- Unsigned part of a Python float literal: digits with at most one
decimal point, at least one digit overall. -/
def pyFloatCore (l : List Char) : Option ℚ :=
  match l.splitOn '.' with
  | [ip] =>
      if ip.isEmpty then none
      else (chunkNat ip).map (fun v => (v : ℚ))
  | [ip, fp] =>
      if ip.isEmpty && fp.isEmpty then none
      else
        match chunkNat ip, chunkNat fp with
        | some a, some bfrac => some ((a : ℚ) + (bfrac : ℚ) / (10 : ℚ) ^ fp.length)
        | _, _ => none
  | _ => none

/-- Python's `float(tok)` on the literal fragment this program's inputs
use: an optional leading `-`, digits, optionally one `.`.  (Exponents,
`inf`/`nan`, a leading `+` and surrounding whitespace are outside the
modelled fragment; no claim below depends on them.)  `none` models the
`ValueError` that `float` raises. -/
def pyFloat (s : String) : Option ℚ :=
  match s.data with
  | '-' :: rest => (pyFloatCore rest).map (fun q => -q)
  | l => pyFloatCore l

/-- The mode test of `__init__`: `funcline.startswith('max ')` holds iff
the token list starts with the token `"max"` followed by at least one
further (possibly empty) token, and similarly for `'min '`. -/
def parseMode (toks : List String) : Option Mode :=
  match toks with
  | "max" :: _ :: _ => some Mode.maxMode
  | "min" :: _ :: _ => some Mode.minMode
  | _ => none

/-- One iteration of the constraint loop of `__init__` on the token list
of one line: `vals = line.split(' ')[1:]`, coefficients from `vals[:-2]`,
right-hand side from `vals[-1]`, relation from `vals[-2]`, returned as
`(coefficients, sign, b)`.  The evaluation order of the source is kept:
the coefficient `float`s run first, then `float(vals[-1])`, then the
relation test, so the first failure wins. -/
def parseLine (toks : List String) : Except PyError (List ℚ × ℚ × ℚ) :=
  let vals := toks.drop 1
  match (vals.take (vals.length - 2)).mapM pyFloat with
  | none => .error .valueError
  | some coeffs =>
    match vals.getLast? with
    | none => .error .indexError
    | some lastTok =>
      match pyFloat lastTok with
      | none => .error .valueError
      | some bv =>
        if vals.length < 2 then .error .indexError
        else
          let rel := vals.getD (vals.length - 2) ""
          if rel = ">=" then .ok (coeffs, -1, bv)
          else if rel = "<=" then .ok (coeffs, 1, bv)
          else .error .badFormat

/-- The constraint loop of `__init__` over all constraint lines,
accumulating `avals`, `signs`, `bvals` in order. -/
def parseConstraints : List (List String) → Except PyError (List ℚ × List ℚ × List ℚ)
  | [] => .ok ([], [], [])
  | toks :: rest =>
    match parseLine toks with
    | .error e => .error e
    | .ok (coeffs, s, bv) =>
      match parseConstraints rest with
      | .error e => .error e
      | .ok (avals, signs, bvals) => .ok (coeffs ++ avals, s :: signs, bv :: bvals)

/-- The tableau assembled by `__init__`: a `(rows+1) × (cols+2)` matrix.
Row `0` is `tab[0,0]=1` followed by `c` (columns `1..n`) and zeros; row
`i+1` is `0`, then row `i` of the reshaped `A` (columns `1..n`), then the
identity block scaled column-wise by the signs (columns `n+1..n+rows`;
the scaling of a whole column also multiplies its objective-row entry,
which is `0`, so only the identity block shows it), then `b i`. -/
def mkTab (c avals signs bvals : List ℚ) (rows : ℕ) : List (List ℚ) :=
  let n := c.length
  (1 :: (c ++ List.replicate (rows + 1) 0)) ::
    (List.range rows).map (fun i =>
      0 :: (((avals.drop (i * n)).take n)
        ++ (List.range rows).map (fun j => if j = i then signs.getD i 0 else 0)
        ++ [bvals.getD i 0]))

/-- The `linprog` value produced by a successful `__init__`. -/
def mkLinprog (mode : Mode) (c avals signs bvals : List ℚ) (rows : ℕ) : Linprog :=
  { rows := rows
    c := c
    A := avals
    b := bvals
    mode := mode
    basic_cols := Finset.Icc (c.length + 1) (c.length + rows)
    tab := mkTab c avals signs bvals rows }

/-- `linprog.__init__` on the token lists of the input lines.  `lines[0]`
on an empty input raises `IndexError`; an unrecognized mode keyword raises
`BadFormatError`; `map(float, ...)` on the objective line may raise
`ValueError`; then the constraint loop runs; finally
`numpy.array(avals).reshape(rows, len(c))` raises unless the flat list has
exactly `rows * len(c)` entries. -/
def parse (lines : List (List String)) : Except PyError Linprog :=
  match lines with
  | [] => .error .indexError
  | funcline :: rest =>
    match parseMode funcline with
    | none => .error .badFormat
    | some mode =>
      match (funcline.drop 1).mapM pyFloat with
      | none => .error .valueError
      | some c =>
        match parseConstraints rest with
        | .error e => .error e
        | .ok (avals, signs, bvals) =>
          if avals.length = rest.length * c.length then
            .ok (mkLinprog mode c avals signs bvals rest.length)
          else .error .reshapeError

/-- `iter_complete`: `all(map(lambda x: x <= 0, self.tab[0, 1:]))` — note
that the slice `tab[0, 1:]` runs to the end of the row, so it includes the
right-hand-side column. -/
def Linprog.iter_complete (lp : Linprog) : Bool :=
  ((lp.tab.getD 0 []).drop 1).all (fun x => decide (x ≤ 0))

/-- `min_value`: `None` unless `iter_complete()`, else `tab[0,-1]`,
negated in `MAX_MODE`. -/
def Linprog.min_value (lp : Linprog) : Option ℚ :=
  if lp.iter_complete then
    if lp.mode = Mode.minMode then some (rowLast (lp.tab.getD 0 []))
    else some (-rowLast (lp.tab.getD 0 []))
  else none

/-- `nonbasic_cols`: `set(range(1, cols+1)) - basic_cols`. -/
def Linprog.nonbasic_cols (lp : Linprog) : Finset ℕ :=
  (Finset.Icc 1 lp.cols) \ lp.basic_cols

/-- The list `candidate_cols` built by `select_pivot`: non-basic columns
with a strictly positive objective-row entry, in the (ascending) set
iteration order. -/
def Linprog.candidate_cols (lp : Linprog) : List ℕ :=
  ((lp.nonbasic_cols).sort (· ≤ ·)).filter (fun col => decide (0 < ent lp.tab 0 col))

/-- The column choice `random.choice(candidate_cols)`: `random.choice`
draws a uniformly distributed in-range position; the embedding takes the
drawn randomness `k` and reduces it to a valid position.  On an empty
candidate list the result is `none`, modelling the `IndexError` that
`random.choice` raises there. -/
def Linprog.select_col (lp : Linprog) (k : ℕ) : Option ℕ :=
  let l := lp.candidate_cols
  l.get? (k % l.length)

/-- The ratio vector `r / x` with `x = tab[1:, col]`, `r = tab[1:, -1]`.
(In `ℚ` a division by a zero entry yields `0` where numpy would produce
`inf`/`nan`; theorems about the ratio test therefore assume the column has
no zero constraint entry.) -/
def Linprog.ratios (lp : Linprog) (col : ℕ) : List ℚ :=
  (List.range (lp.tab.length - 1)).map
    (fun i => rowLast (lp.tab.getD (i + 1) []) / ent lp.tab (i + 1) col)

/-- The row-selection loop of `select_pivot`:
`min_i, min_v = 0, ratios[0]`, then for each `i, v` update to `(i, v)`
when `(min_v < 0 or v < min_v) and v > 0`. -/
def scanMin : List ℚ → ℕ → ℕ → ℚ → ℕ
  | [], _, mi, _ => mi
  | v :: rest, i, mi, mv =>
    if (mv < 0 ∨ v < mv) ∧ 0 < v then scanMin rest (i + 1) i v
    else scanMin rest (i + 1) mi mv

/-- The row returned by `select_pivot` for a chosen column: the loop
above started at `(0, ratios[0])`, plus `1` to compensate for dropping
the objective row.  (`ratios[0]` on an empty ratio vector would be an
`IndexError` in Python; the embedding defaults to `0` and every theorem
about `select_row` assumes at least one constraint row.) -/
def Linprog.select_row (lp : Linprog) (col : ℕ) : ℕ :=
  let rs := lp.ratios col
  scanMin rs 0 0 (rs.getD 0 0) + 1

/-- `select_pivot`: the chosen `(row, col)` pair, `none` when the
candidate list is empty and `random.choice` raises. -/
def Linprog.select_pivot (lp : Linprog) (k : ℕ) : Option (ℕ × ℕ) :=
  (lp.select_col k).map (fun col => (lp.select_row col, col))

/-- The tableau mutation of `pivot(row, var)`: scale row `row` by
`1 / tab[row, var]`, then subtract `tab[i, var]` times the scaled pivot
row from every other row.  (`1 / 0 = 0` in `ℚ` where Python raises
`ZeroDivisionError`; the pivot theorems assume a nonzero pivot entry.) -/
def pivotTab (tab : List (List ℚ)) (row var : ℕ) : List (List ℚ) :=
  let d := ent tab row var
  let prow := (tab.getD row []).map (fun a => a * (1 / d))
  (List.range tab.length).map (fun i =>
    if i = row then prow
    else (tab.getD i []).zipWith (fun a p => a - ent tab i var * p) prow)

/-- The `basic_cols` update of `pivot`: scan the set (ascending order,
see the header) for a column whose objective-row entry in the updated
tableau is nonzero, remove the first such column if any, then add `var`. -/
def updateBasic (tab' : List (List ℚ)) (basic : Finset ℕ) (var : ℕ) : Finset ℕ :=
  match (basic.sort (· ≤ ·)).find? (fun col => decide (ent tab' 0 col ≠ 0)) with
  | some col => insert var (basic.erase col)
  | none => insert var basic

/-- `pivot(row, var)`. -/
def Linprog.pivot (lp : Linprog) (row var : ℕ) : Linprog :=
  let tab' := pivotTab lp.tab row var
  { lp with tab := tab', basic_cols := updateBasic tab' lp.basic_cols var }

/-- `solve`: `x = zeros(cols)`; for each basic column, for each constraint
row with a nonzero entry in that column, write that row's right-hand side
into `x[col-1]` — the last such row wins, as in the Python loop, which
has no `break`. -/
def Linprog.solve (lp : Linprog) : List ℚ :=
  (List.range lp.cols).map (fun j =>
    if (j + 1) ∈ lp.basic_cols then
      match ((List.range (lp.tab.length - 1)).filter
          (fun i => decide (ent lp.tab (i + 1) (j + 1) ≠ 0))).getLast? with
      | some i => rowLast (lp.tab.getD (i + 1) [])
      | none => 0
    else 0)

/-- `check_feasible`: with `A = tab[1:, 1:-1]` and `x = solve()`, check
`A.dot(x) == tab[1:, -1]` componentwise. -/
def Linprog.check_feasible (lp : Linprog) : Bool :=
  let x := lp.solve
  (List.range (lp.tab.length - 1)).all (fun i =>
    decide ((List.range lp.cols).foldl
        (fun acc j => acc + ent lp.tab (i + 1) (j + 1) * x.getD j 0) 0
      = rowLast (lp.tab.getD (i + 1) [])))

/-- The observable outcomes of `main`: construction failure (`usage` text
on `BadFormatError`, an uncaught exception otherwise — both terminate the
run and are tagged by the error), the infeasible-at-origin notice, the
iteration-limit report (which prints the current `linprog` state and the
counter), the uncaught `IndexError` from `random.choice` on an empty
candidate list, and the success report. -/
inductive MainResult where
  | parseFailed (e : PyError)
  | infeasible
  | iterLimit (lp : Linprog) (iters : ℕ)
  | selectFailed
  | solved (value : Option ℚ) (point : List ℚ)
  deriving DecidableEq

/-- The `while` loop of `main`.  `fuel` makes the recursion structural so
that the kernel can evaluate closed runs; the driver calls the loop with
`fuel = iter_limit`, which keeps `fuel ≥ limit - i` throughout, so the
`fuel = 0` branch (which mimics the limit branch) is never taken — the
loop theorems below never rely on it. -/
def mainLoop (rand : ℕ → ℕ) (limit : ℕ) : ℕ → Linprog → ℕ → MainResult
  | fuel, lp, i =>
    if lp.iter_complete then .solved lp.min_value (lp.solve.take lp.c.length)
    else if limit ≤ i + 1 then .iterLimit lp (i + 1)
    else
      match lp.select_pivot (rand i) with
      | none => .selectFailed
      | some rc =>
        match fuel with
        | fuel' + 1 => mainLoop rand limit fuel' (lp.pivot rc.1 rc.2) (i + 1)
        | 0 => .iterLimit lp (i + 1)

/-- `main`: build, gate on `check_feasible`, then iterate with
`iter_limit = 10 * len(lp.c.T)` (the decision-variable count) starting
from `i = 0`.  `rand` supplies the randomness consumed by the `i`-th
`random.choice`. -/
def runMain (lines : List (List String)) (rand : ℕ → ℕ) : MainResult :=
  match parse lines with
  | .error e => .parseFailed e
  | .ok lp =>
    if lp.check_feasible then mainLoop rand (10 * lp.c.length) (10 * lp.c.length) lp 0
    else .infeasible

/-- The state after `k` applications of the driver's step
(`select_pivot` then `pivot`), `none` as soon as a selection fails. -/
def iterStates (lp : Linprog) (rand : ℕ → ℕ) : ℕ → Option Linprog
  | 0 => some lp
  | k + 1 =>
    match iterStates lp rand k with
    | none => none
    | some s =>
      match s.select_pivot (rand k) with
      | none => none
      | some rc => some (s.pivot rc.1 rc.2)

/-- Shape invariant of a `linprog` state: the tableau is a
`(rows+1) × (cols+2)` matrix (which numpy's fixed array shape guarantees
for every state the program constructs). -/
def WF (lp : Linprog) : Prop :=
  lp.tab.length = lp.rows + 1 ∧ ∀ r ∈ lp.tab, r.length = lp.cols + 2

instance (lp : Linprog) : Decidable (WF lp) := by
  unfold WF; infer_instance

instance {ε α : Type} [DecidableEq ε] [DecidableEq α] : DecidableEq (Except ε α) := fun a b =>
  match a, b with
  | .error e, .error f =>
    match decEq e f with
    | isTrue h => isTrue (by rw [h])
    | isFalse h => isFalse (by intro hc; cases hc; exact h rfl)
  | .ok x, .ok y =>
    match decEq x y with
    | isTrue h => isTrue (by rw [h])
    | isFalse h => isFalse (by intro hc; cases hc; exact h rfl)
  | .error _, .ok _ => isFalse (by intro hc; cases hc)
  | .ok _, .error _ => isFalse (by intro hc; cases hc)

/-- `True` iff construction succeeds (observation used to state that an
input is accepted without spelling out the constructed object). -/
def parseOk (lines : List (List String)) : Bool :=
  match parse lines with
  | .ok _ => true
  | .error _ => false

/-- The optimality predicate as the specification words it: every
objective-row entry excluding column `0` and the RHS column (so columns
`1..cols`) is `≤ 0`.  This is the spec-side twin of `iter_complete`,
written from the spec sentence for comparison with the code. -/
def isOptimalSpec (lp : Linprog) : Bool :=
  (List.range lp.cols).all (fun j => decide (ent lp.tab 0 (j + 1) ≤ 0))

/-- The row choice as the specification words it: among constraint rows
with a strictly positive entry in the chosen column and a nonnegative
ratio, the first row with the smallest ratio, reported with the `+1`
offset.  Spec-side twin of `select_row`, written from the spec sentence
for comparison with the code. -/
def specSelectRow (lp : Linprog) (col : ℕ) : Option ℕ :=
  let rs := lp.ratios col
  let cand := (List.range (lp.tab.length - 1)).filter
    (fun i => decide (0 < ent lp.tab (i + 1) col) && decide (0 ≤ rs.getD i 0))
  match (cand.map (fun i => rs.getD i 0)).min? with
  | none => none
  | some m => (cand.find? (fun i => decide (rs.getD i 0 = m))).map (fun i => i + 1)

/-- `r` is the position (0-based, among constraint rows) of the first
minimum of the ratio vector over the strictly positive ratios. -/
def IsFirstPosMin (rs : List ℚ) (r : ℕ) : Prop :=
  r < rs.length ∧ 0 < rs.getD r 0 ∧
    (∀ i, i < rs.length → 0 < rs.getD i 0 → rs.getD r 0 ≤ rs.getD i 0) ∧
    (∀ i, i < r → 0 < rs.getD i 0 → rs.getD r 0 < rs.getD i 0)

/-- Accumulator-free companion of `scanMin`: the position and value the
scan settles on (`none` when no element ever triggers an update), with
`bound` playing the role of the running minimum's start value. -/
def scanSel : List ℚ → ℚ → Option (ℕ × ℚ)
  | [], _ => none
  | v :: rest, bound =>
    if (bound < 0 ∨ v < bound) ∧ 0 < v then
      match scanSel rest v with
      | some km => some (km.1 + 1, km.2)
      | none => some (0, v)
    else (scanSel rest bound).map (fun km => (km.1 + 1, km.2))

/-- The randomness stream that always hands `0` to `random.choice`
(legitimate, since any in-range position can be drawn). -/
def zeroRand : ℕ → ℕ := fun _ => 0

/-! Concrete instances used by witnesses and counterexamples. -/

/-- `max 1 / restrict 1 <= -1` (a negative `b`, which `__init__` accepts:
the nonnegativity of `b` is a documented, unvalidated precondition). -/
def lines9 : List (List String) := [["max", "1"], ["restrict", "1", "<=", "-1"]]

/-- The `linprog` value `parse lines9` constructs. -/
def lp9 : Linprog := mkLinprog .maxMode [1] [1] [1] [-1] 1

/-- `max 1 1 / restrict 1 1 >= 0`, a degenerate instance on which the
driver cycles forever (with the `zeroRand` draws). -/
def lines5 : List (List String) := [["max", "1", "1"], ["restrict", "1", "1", ">=", "0"]]

/-- The `linprog` value `parse lines5` constructs. -/
def lp5 : Linprog := mkLinprog .maxMode [1, 1] [1, 1] [-1] [0] 1

/-- `max 0 / restrict 1 <= 1`: a zero objective coefficient, so that
`pivot(1, 1)` is a pivot on a column with a zero objective-row entry. -/
def lines7 : List (List String) := [["max", "0"], ["restrict", "1", "<=", "1"]]

/-- The `linprog` value `parse lines7` constructs. -/
def lp7 : Linprog := mkLinprog .maxMode [0] [1] [1] [1] 1

/-- The state `pivot(1, 1)` reaches from `lp9` (also reached by the
driver, see the C9 theorem): objective row `[1, 0, -1, 1]` whose only
positive entry is the right-hand side. -/
def lpStall : Linprog :=
  { rows := 1, c := [1], A := [1], b := [-1], mode := .maxMode,
    basic_cols := {1}, tab := [[1, 0, -1, 1], [0, 1, 1, -1]] }

/-- A state whose chosen column `1` has entries `(1, 1)` against
right-hand sides `(5, 0)`: ratios `(5, 0)`, so the spec's rule picks the
zero-ratio row `2` while the code's scan stays on row `1`. -/
def lpRatio : Linprog :=
  { rows := 2, c := [1, 1], A := [1, 0, 1, 0], b := [5, 0], mode := .maxMode,
    basic_cols := {3, 4}, tab := [[1, 1, 1, 0, 0, 0], [0, 1, 0, 1, 0, 5], [0, 1, 0, 0, 1, 0]] }

/-- A completed state (`iter_complete` holds) with objective-row RHS
`-2`, used to exercise `min_value` on the defined side. -/
def lpDone : Linprog :=
  { rows := 1, c := [0], A := [1], b := [1], mode := .maxMode,
    basic_cols := {2}, tab := [[1, 0, -1, -2], [0, 1, 1, 1]] }

/-- A constraint line with one coefficient under a two-variable
objective: the per-line arity is wrong. -/
def lines8 : List (List String) := [["max", "1", "1"], ["restrict", "1", "<=", "5"]]

/-- Two constraint lines with three and one coefficients under a
two-variable objective: both line arities are wrong, but the flat total
is `4 = 2 × 2`. -/
def lines8b : List (List String) :=
  [["max", "1", "1"], ["restrict", "1", "2", "3", "<=", "5"], ["restrict", "1", "<=", "5"]]

/-- A constraint line with the unrecognized relation token `!=`. -/
def lines10bad : List (List String) := [["max", "1"], ["restrict", "1", "!=", "2"]]

/-- The basic-column bookkeeping invariant: `basic_cols` holds exactly
`rows` columns, assigned one-to-one onto the constraint rows by a
responsibility map `f`, where each basic column has a nonzero coefficient
in exactly its own row, zero in every other constraint row, and a zero
objective-row entry (the property the leaving-column scan of `pivot`
relies on). -/
def BasicInv (lp : Linprog) : Prop :=
  lp.basic_cols.card = lp.rows ∧
  ∃ f : ℕ → ℕ,
    (∀ c ∈ lp.basic_cols, 1 ≤ f c ∧ f c ≤ lp.rows ∧ ent lp.tab (f c) c ≠ 0 ∧
      ent lp.tab 0 c = 0 ∧
      ∀ i, 1 ≤ i → i ≤ lp.rows → i ≠ f c → ent lp.tab i c = 0) ∧
    (∀ c₁ ∈ lp.basic_cols, ∀ c₂ ∈ lp.basic_cols, f c₁ = f c₂ → c₁ = c₂) ∧
    (∀ r, 1 ≤ r → r ≤ lp.rows → ∃ c ∈ lp.basic_cols, f c = r)

/-! ## List access helpers -/

theorem getD_map_zero (f : ℚ → ℚ) (hf : f 0 = 0) (l : List ℚ) (j : ℕ) :
    (l.map f).getD j 0 = f (l.getD j 0) := by
  rcases h : l[j]? with _ | a
  · have hm : (l.map f)[j]? = none := by simp [List.getElem?_map, h]
    simp [List.getD_eq_getElem?_getD, h, hm, hf]
  · have hm : (l.map f)[j]? = some (f a) := by simp [List.getElem?_map, h]
    simp [List.getD_eq_getElem?_getD, h, hm]

theorem zipWith_getD (f : ℚ → ℚ → ℚ) (hf : f 0 0 = 0) :
    ∀ (as bs : List ℚ), as.length = bs.length → ∀ j,
      (List.zipWith f as bs).getD j 0 = f (as.getD j 0) (bs.getD j 0)
  | [], [], _, j => by simp [hf]
  | [], _ :: _, h, _ => by simp at h
  | _ :: _, [], h, _ => by simp at h
  | a :: as', b :: bs', h, 0 => by simp
  | a :: as', b :: bs', h, j + 1 => by
    simpa using zipWith_getD f hf as' bs' (by simpa using h) j

theorem range_map_getD {α : Type} (n : ℕ) (f : ℕ → α) (d : α) (i : ℕ) (h : i < n) :
    ((List.range n).map f).getD i d = f i := by
  simp [List.getD_eq_getElem?_getD, List.getElem?_map, List.getElem?_range h]

theorem WF.rowLen {lp : Linprog} (h : WF lp) {i : ℕ} (hi : i < lp.tab.length) :
    (lp.tab.getD i []).length = lp.cols + 2 := by
  rw [List.getD_eq_getElem lp.tab [] hi]
  exact h.2 _ (List.getElem_mem hi)

/-! ## Entries of a pivoted tableau -/

theorem pivotTab_length (tab : List (List ℚ)) (row var : ℕ) :
    (pivotTab tab row var).length = tab.length := by
  simp [pivotTab]

theorem pivotTab_getD (tab : List (List ℚ)) (row var i : ℕ) (hi : i < tab.length) :
    (pivotTab tab row var).getD i [] =
      if i = row then (tab.getD row []).map (fun a => a * (1 / ent tab row var))
      else (tab.getD i []).zipWith (fun a p => a - ent tab i var * p)
        ((tab.getD row []).map (fun a => a * (1 / ent tab row var))) := by
  simp [pivotTab, List.getD_eq_getElem?_getD, List.getElem?_map, List.getElem?_range hi]

theorem ent_pivotTab_self (tab : List (List ℚ)) (row var : ℕ) (hrow : row < tab.length)
    (j : ℕ) : ent (pivotTab tab row var) row j = ent tab row j * (1 / ent tab row var) := by
  unfold ent
  rw [pivotTab_getD tab row var row hrow, if_pos rfl]
  exact getD_map_zero _ (by ring) _ j

theorem ent_pivotTab_ne (tab : List (List ℚ)) (row var i : ℕ) (hi : i < tab.length)
    (hne : i ≠ row) (hlen : (tab.getD i []).length = (tab.getD row []).length) (j : ℕ) :
    ent (pivotTab tab row var) i j
      = ent tab i j - ent tab i var * (ent tab row j * (1 / ent tab row var)) := by
  unfold ent
  rw [pivotTab_getD tab row var i hi, if_neg hne]
  rw [zipWith_getD _ (by ring) _ _ (by simpa using hlen) j]
  rw [getD_map_zero _ (by ring) _ j]
  rfl

theorem pivot_tab (lp : Linprog) (row var : ℕ) :
    (lp.pivot row var).tab = pivotTab lp.tab row var := rfl

theorem pivot_basic (lp : Linprog) (row var : ℕ) :
    (lp.pivot row var).basic_cols = updateBasic (pivotTab lp.tab row var) lp.basic_cols var := rfl

theorem pivot_rows (lp : Linprog) (row var : ℕ) : (lp.pivot row var).rows = lp.rows := rfl

theorem pivot_cols (lp : Linprog) (row var : ℕ) : (lp.pivot row var).cols = lp.cols := rfl

/-- Claim C1: for a constraint row `row` and a column `var` with a nonzero
entry `tab[row, var]`, after `pivot(row, var)` the pivot entry is `1`, the
rest of column `var` is `0`, the pivot row is the old pivot row divided by
the old pivot entry, and every other row is its old value minus its old
`var`-entry times the normalized pivot row. -/
theorem pivot_entries (lp : Linprog) (row var : ℕ) (hwf : WF lp)
    (hrow1 : 1 ≤ row) (hrow : row ≤ lp.rows) (hnz : ent lp.tab row var ≠ 0) :
    ent (lp.pivot row var).tab row var = 1 ∧
    (∀ i, i ≤ lp.rows → i ≠ row → ent (lp.pivot row var).tab i var = 0) ∧
    (∀ j, ent (lp.pivot row var).tab row j = ent lp.tab row j / ent lp.tab row var) ∧
    (∀ i, i ≤ lp.rows → i ≠ row → ∀ j,
      ent (lp.pivot row var).tab i j
        = ent lp.tab i j - ent lp.tab i var * (ent lp.tab row j / ent lp.tab row var)) := by
  have hrowlt : row < lp.tab.length := by rw [hwf.1]; omega
  have hlen : ∀ i, i < lp.tab.length →
      (lp.tab.getD i []).length = (lp.tab.getD row []).length := by
    intro i hi
    rw [hwf.rowLen hi, hwf.rowLen hrowlt]
  refine ⟨?_, ?_, ?_, ?_⟩
  · rw [pivot_tab, ent_pivotTab_self lp.tab row var hrowlt var]
    exact mul_one_div_cancel hnz
  · intro i hi hne
    have hilt : i < lp.tab.length := by rw [hwf.1]; omega
    rw [pivot_tab, ent_pivotTab_ne lp.tab row var i hilt hne (hlen i hilt) var,
      mul_one_div_cancel hnz]
    ring
  · intro j
    rw [pivot_tab, ent_pivotTab_self lp.tab row var hrowlt j, mul_one_div]
  · intro i hi hne j
    have hilt : i < lp.tab.length := by rw [hwf.1]; omega
    rw [pivot_tab, ent_pivotTab_ne lp.tab row var i hilt hne (hlen i hilt) j, mul_one_div]

/-- Witness for C1 at `lp9`, `pivot(1, 1)`. -/
theorem pivot_entries_witness :
    ent (lp9.pivot 1 1).tab 1 1 = 1 ∧ ent (lp9.pivot 1 1).tab 0 1 = 0 ∧
    ent (lp9.pivot 1 1).tab 1 3 = ent lp9.tab 1 3 / ent lp9.tab 1 1 ∧
    ent (lp9.pivot 1 1).tab 0 3
      = ent lp9.tab 0 3 - ent lp9.tab 0 1 * (ent lp9.tab 1 3 / ent lp9.tab 1 1) := by
  obtain ⟨h1, h2, h3, h4⟩ := pivot_entries lp9 1 1 (by with_unfolding_all decide)
    (by decide) (by decide) (by with_unfolding_all decide)
  exact ⟨h1, h2 0 (by decide) (by decide), h3 3, h4 0 (by decide) (by decide) 3⟩

/-! ## C6: `min_value` -/

/-- Claim C6: `min_value` returns the sentinel `None` whenever the
completion predicate fails, and otherwise the objective row's RHS entry,
unchanged in `MIN_MODE` and negated in `MAX_MODE`.  (The embedding is
pure, so `min_value` leaves the tableau untouched by construction.) -/
theorem min_value_spec (lp : Linprog) (hwf : WF lp) :
    (lp.iter_complete = false → lp.min_value = none) ∧
    (lp.iter_complete = true →
      lp.min_value = some (if lp.mode = Mode.minMode then ent lp.tab 0 (lp.cols + 1)
        else -ent lp.tab 0 (lp.cols + 1))) := by
  have h0 : 0 < lp.tab.length := by rw [hwf.1]; omega
  have hr : rowLast (lp.tab.getD 0 []) = ent lp.tab 0 (lp.cols + 1) := by
    unfold rowLast ent
    rw [hwf.rowLen h0]
    have he : lp.cols + 2 - 1 = lp.cols + 1 := by omega
    rw [he]
  constructor
  · intro h
    simp [Linprog.min_value, h]
  · intro h
    by_cases hm : lp.mode = Mode.minMode <;>
      simp only [Linprog.min_value, h, hm, if_true, if_false, reduceIte, hr]

/-- Witness for C6 at the completed state `lpDone`. -/
theorem min_value_spec_witness :
    lpDone.min_value = some (if lpDone.mode = Mode.minMode then ent lpDone.tab 0 (lpDone.cols + 1)
      else -ent lpDone.tab 0 (lpDone.cols + 1)) :=
  (min_value_spec lpDone (by decide)).2 (by with_unfolding_all decide)

/-! ## C2: the completion predicate and the RHS column -/

/-- Counterexample to claim C2 as stated: at `lpStall` every objective-row
entry excluding column `0` and the RHS is `≤ 0`, so the claim's predicate
holds, yet `iter_complete()` is `false`, because the slice `tab[0, 1:]`
includes the RHS entry `1 > 0`.  The RHS does play a role. -/
theorem iter_complete_rhs_cex :
    isOptimalSpec lpStall = true ∧ lpStall.iter_complete = false := by
  with_unfolding_all decide

/-- Claim C2 amended: `iter_complete()` is true iff every objective-row
entry excluding column `0` but *including* the RHS column is `≤ 0`. -/
theorem iter_complete_iff (lp : Linprog) (hwf : WF lp) :
    lp.iter_complete = true ↔ ∀ j, j < lp.cols + 2 → 1 ≤ j → ent lp.tab 0 j ≤ 0 := by
  have h0 : 0 < lp.tab.length := by rw [hwf.1]; omega
  have hlen : (lp.tab.getD 0 []).length = lp.cols + 2 := hwf.rowLen h0
  unfold Linprog.iter_complete
  rw [List.all_eq_true]
  constructor
  · intro h j hj2 hj1
    have hjl : j < (lp.tab.getD 0 []).length := by omega
    have hget : (lp.tab.getD 0 [])[j]? = some ((lp.tab.getD 0 []).getD j 0) := by
      rw [List.getElem?_eq_getElem hjl, List.getD_eq_getElem _ 0 hjl]
    have hdrop : ((lp.tab.getD 0 []).drop 1)[j - 1]? = some ((lp.tab.getD 0 []).getD j 0) := by
      rw [List.getElem?_drop]
      have : 1 + (j - 1) = j := by omega
      rw [this, hget]
    have hmem : (lp.tab.getD 0 []).getD j 0 ∈ (lp.tab.getD 0 []).drop 1 :=
      List.get?_mem (by rw [List.get?_eq_getElem?]; exact hdrop)
    have h2 := h _ hmem
    simp only [decide_eq_true_eq] at h2
    exact h2
  · intro h x hx
    obtain ⟨k, hk, hkx⟩ := List.getElem_of_mem hx
    have hkd : ((lp.tab.getD 0 []).drop 1)[k]? = some x := by
      rw [List.getElem?_eq_getElem hk, hkx]
    rw [List.getElem?_drop] at hkd
    have hklen : k < lp.cols + 1 := by
      have := hk
      simp only [List.length_drop, hlen] at this
      omega
    have hent : ent lp.tab 0 (1 + k) = x := by
      unfold ent
      rw [List.getD_eq_getElem?_getD, hkd]
      rfl
    have := h (1 + k) (by omega) (by omega)
    rw [hent] at this
    simpa using this

/-- Witness for C2's amended claim at `lpDone`. -/
theorem iter_complete_iff_witness : lpDone.iter_complete = true :=
  (iter_complete_iff lpDone (by decide)).mpr (by with_unfolding_all decide)

/-! ## C3: the column choice -/

theorem mem_candidate_cols (lp : Linprog) (c : ℕ) :
    c ∈ lp.candidate_cols ↔ c ∈ lp.nonbasic_cols ∧ 0 < ent lp.tab 0 c := by
  unfold Linprog.candidate_cols
  rw [List.mem_filter, Finset.mem_sort]
  simp

/-- Claim C3: when some non-basic column has a strictly positive
objective-row entry, the column choice always succeeds, always lands in
that candidate set, can produce every member of it, and hits each member
for exactly one position among the `len(candidate_cols)` equally likely
positions `random.choice` draws from — a uniform choice over exactly the
candidate set. -/
theorem select_col_spec (lp : Linprog)
    (h : ∃ c ∈ lp.nonbasic_cols, 0 < ent lp.tab 0 c) :
    (∀ k c, lp.select_col k = some c → c ∈ lp.nonbasic_cols ∧ 0 < ent lp.tab 0 c) ∧
    (∀ k, ∃ c, lp.select_col k = some c) ∧
    (∀ c, c ∈ lp.nonbasic_cols → 0 < ent lp.tab 0 c →
      ∃ k, k < lp.candidate_cols.length ∧ lp.select_col k = some c) ∧
    (∀ k₁ k₂ c, k₁ < lp.candidate_cols.length → k₂ < lp.candidate_cols.length →
      lp.select_col k₁ = some c → lp.select_col k₂ = some c → k₁ = k₂) ∧
    (∀ k, lp.select_pivot k = (lp.select_col k).map (fun col => (lp.select_row col, col))) := by
  obtain ⟨c₀, hc₀, hc₀pos⟩ := h
  have hc₀mem : c₀ ∈ lp.candidate_cols := (mem_candidate_cols lp c₀).mpr ⟨hc₀, hc₀pos⟩
  have hpos : 0 < lp.candidate_cols.length := List.length_pos.mpr (by
    intro hnil
    rw [hnil] at hc₀mem
    simp at hc₀mem)
  have hnodup : lp.candidate_cols.Nodup :=
    (Finset.sort_nodup _ _).filter _
  refine ⟨?_, ?_, ?_, ?_, fun _ => rfl⟩
  · intro k c hc
    unfold Linprog.select_col at hc
    exact (mem_candidate_cols lp c).mp (List.get?_mem hc)
  · intro k
    have hlt : k % lp.candidate_cols.length < lp.candidate_cols.length := Nat.mod_lt _ hpos
    exact ⟨_, by unfold Linprog.select_col; rw [List.get?_eq_getElem?,
      List.getElem?_eq_getElem hlt]⟩
  · intro c hcnb hcpos
    obtain ⟨k, hk, hkc⟩ := List.getElem_of_mem ((mem_candidate_cols lp c).mpr ⟨hcnb, hcpos⟩)
    refine ⟨k, hk, ?_⟩
    unfold Linprog.select_col
    rw [List.get?_eq_getElem?, Nat.mod_eq_of_lt hk, List.getElem?_eq_getElem hk, hkc]
  · intro k₁ k₂ c hk₁ hk₂ h₁ h₂
    unfold Linprog.select_col at h₁ h₂
    rw [List.get?_eq_getElem?, Nat.mod_eq_of_lt hk₁] at h₁
    rw [List.get?_eq_getElem?, Nat.mod_eq_of_lt hk₂] at h₂
    exact List.getElem?_inj hk₁ hnodup (h₁.trans h₂.symm)

/-- Witness for C3 at `lp9` (candidate set `{1}`). -/
theorem select_col_spec_witness :
    (1 ∈ lp9.nonbasic_cols ∧ 0 < ent lp9.tab 0 1) ∧
    lp9.select_pivot 0 = (lp9.select_col 0).map (fun col => (lp9.select_row col, col)) := by
  obtain ⟨h1, -, -, -, h5⟩ := select_col_spec lp9 (by with_unfolding_all decide)
  exact ⟨h1 0 1 (by with_unfolding_all decide), h5 0⟩

/-! ## C4: the ratio-test scan -/

theorem getD_mem {l : List ℚ} {j : ℕ} (h : j < l.length) : l.getD j 0 ∈ l := by
  rw [List.getD_eq_getElem l 0 h]
  exact List.getElem_mem h

theorem scanMin_eq_scanSel : ∀ (vs : List ℚ) (i mi : ℕ) (mv : ℚ),
    scanMin vs i mi mv = (scanSel vs mv).elim mi (fun km => i + km.1)
  | [], i, mi, mv => rfl
  | v :: rest, i, mi, mv => by
    by_cases hc : (mv < 0 ∨ v < mv) ∧ 0 < v
    · rw [scanMin, if_pos hc, scanMin_eq_scanSel rest (i + 1) i v]
      rw [scanSel, if_pos hc]
      rcases hrec : scanSel rest v with _ | km
      · simp
      · simp [Nat.add_assoc, Nat.add_comm 1 km.1]
    · rw [scanMin, if_neg hc, scanMin_eq_scanSel rest (i + 1) mi mv]
      rw [scanSel, if_neg hc]
      rcases hrec : scanSel rest mv with _ | km
      · simp
      · simp [Nat.add_assoc, Nat.add_comm 1 km.1]

theorem scanSel_eq_none_iff : ∀ (vs : List ℚ) (mv : ℚ),
    scanSel vs mv = none ↔ ∀ x ∈ vs, ¬((mv < 0 ∨ x < mv) ∧ 0 < x)
  | [], mv => by simp [scanSel]
  | v :: rest, mv => by
    by_cases hc : (mv < 0 ∨ v < mv) ∧ 0 < v
    · rw [scanSel, if_pos hc]
      constructor
      · intro h
        rcases hrec : scanSel rest v with _ | km <;> rw [hrec] at h <;> simp at h
      · intro h
        exact absurd hc (h v (by simp))
    · rw [scanSel, if_neg hc]
      rw [Option.map_eq_none', scanSel_eq_none_iff rest mv]
      constructor
      · intro h x hx
        rcases List.mem_cons.mp hx with rfl | hxr
        · exact hc
        · exact h x hxr
      · intro h x hx
        exact h x (List.mem_cons_of_mem _ hx)

theorem scanSel_some_spec : ∀ (vs : List ℚ) (mv : ℚ) (k : ℕ) (m : ℚ),
    scanSel vs mv = some (k, m) →
    k < vs.length ∧ vs.getD k 0 = m ∧ 0 < m ∧ (mv < 0 ∨ m < mv) ∧
    (∀ j, j < vs.length → 0 < vs.getD j 0 → (mv < 0 ∨ vs.getD j 0 < mv) → m ≤ vs.getD j 0) ∧
    (∀ j, j < k → 0 < vs.getD j 0 → (mv < 0 ∨ vs.getD j 0 < mv) → m < vs.getD j 0)
  | [], mv, k, m => by intro h; cases h
  | v :: rest, mv, k, m => by
    intro h
    by_cases hc : (mv < 0 ∨ v < mv) ∧ 0 < v
    · rw [scanSel, if_pos hc] at h
      rcases hrec : scanSel rest v with _ | km <;> rw [hrec] at h
      · -- no later update: the head wins with value `v`
        injection h with h'
        obtain ⟨hk0, hv0⟩ := Prod.mk.inj h'
        subst hk0
        subst hv0
        have hnone := (scanSel_eq_none_iff rest v).mp hrec
        refine ⟨Nat.succ_pos _, rfl, hc.2, hc.1, ?_, by omega⟩
        intro j hj hjpos _
        match j with
        | 0 => exact le_rfl
        | j' + 1 =>
          simp only [List.getD_cons_succ] at hjpos ⊢
          have hjlen : j' < rest.length := by simpa using hj
          have hx := hnone _ (getD_mem hjlen)
          by_contra hlt
          exact hx ⟨Or.inr (by linarith), hjpos⟩
      · -- a later update wins with value `m < v`
        injection h with h'
        obtain ⟨hk0, hv0⟩ := Prod.mk.inj h'
        subst hk0
        subst hv0
        obtain ⟨hk', hval, hmpos, hmv, hall, hfirst⟩ :=
          scanSel_some_spec rest v km.1 km.2 (by rw [hrec])
        have hmltv : km.2 < v := by
          rcases hmv with hneg | hlt
          · linarith [hc.2]
          · exact hlt
        refine ⟨Nat.succ_lt_succ hk', by simpa using hval, hmpos, ?_, ?_, ?_⟩
        · rcases hc.1 with hneg | hlt
          · exact Or.inl hneg
          · exact Or.inr (by linarith)
        · intro j hj hjpos hjmv
          match j with
          | 0 => simpa using le_of_lt hmltv
          | j' + 1 =>
            simp only [List.getD_cons_succ] at hjpos ⊢
            by_cases hxv : rest.getD j' 0 < v
            · exact hall j' (by simpa using hj) hjpos (Or.inr hxv)
            · linarith
        · intro j hj hjpos hjmv
          match j with
          | 0 => simpa using hmltv
          | j' + 1 =>
            simp only [List.getD_cons_succ] at hjpos ⊢
            by_cases hxv : rest.getD j' 0 < v
            · exact hfirst j' (by omega) hjpos (Or.inr hxv)
            · linarith
    · rw [scanSel, if_neg hc] at h
      rcases hrec : scanSel rest mv with _ | km <;> rw [hrec] at h
      · cases h
      · rw [Option.map_some'] at h
        injection h with h'
        obtain ⟨hk0, hv0⟩ := Prod.mk.inj h'
        subst hk0
        subst hv0
        obtain ⟨hk', hval, hmpos, hmv, hall, hfirst⟩ :=
          scanSel_some_spec rest mv km.1 km.2 (by rw [hrec])
        refine ⟨Nat.succ_lt_succ hk', by simpa using hval, hmpos, hmv, ?_, ?_⟩
        · intro j hj hjpos hjmv
          match j with
          | 0 => exact absurd ⟨by simpa using hjmv, by simpa using hjpos⟩ hc
          | j' + 1 =>
            simp only [List.getD_cons_succ] at hjpos hjmv ⊢
            exact hall j' (by simpa using hj) hjpos hjmv
        · intro j hj hjpos hjmv
          match j with
          | 0 => exact absurd ⟨by simpa using hjmv, by simpa using hjpos⟩ hc
          | j' + 1 =>
            simp only [List.getD_cons_succ] at hjpos hjmv ⊢
            exact hfirst j' (by omega) hjpos hjmv

/-- Counterexample to claim C4 as stated: at `lpRatio`, column `1` has
strictly positive entries in both constraint rows with ratios `(5, 0)`.
The spec's rule (smallest nonnegative ratio among positive-entry rows,
first-encountered tie-break) picks row `2`, but `select_pivot`'s scan —
which filters on a strictly positive *ratio*, never on the entry sign —
returns row `1`. -/
theorem select_row_cex :
    specSelectRow lpRatio 1 = some 2 ∧ lpRatio.select_row 1 = 1 ∧ (2 : ℕ) ≠ 1 := by
  with_unfolding_all decide

/-- Claim C4 amended: the row scan works on the ratio vector
`tab[1:, -1] / tab[1:, col]` and filters on a strictly positive *ratio*
(not on a strictly positive column entry, and a zero ratio never enters):
when the first constraint row's ratio is `0`, or no ratio is positive,
the scan's initial value `(0, ratios[0])` survives and row `1` is
returned; otherwise the returned row (offset by one for the objective
row) is the first row attaining the minimum strictly positive ratio.
(The nonzero-entry hypothesis keeps the `ℚ` ratios faithful to the
floating-point ones.) -/
theorem select_row_spec (lp : Linprog) (col : ℕ) (hwf : WF lp) (h1 : 1 ≤ lp.rows)
    (hnz : ∀ i, i < lp.tab.length - 1 → ent lp.tab (i + 1) col ≠ 0) :
    ((lp.ratios col).getD 0 0 = 0 → lp.select_row col = 1) ∧
    ((∀ i, i < (lp.ratios col).length → ¬ 0 < (lp.ratios col).getD i 0) →
      lp.select_row col = 1) ∧
    ((lp.ratios col).getD 0 0 ≠ 0 →
      (∃ i, i < (lp.ratios col).length ∧ 0 < (lp.ratios col).getD i 0) →
      IsFirstPosMin (lp.ratios col) (lp.select_row col - 1)) := by
  set rs := lp.ratios col with hrs
  have hsel : lp.select_row col = (scanSel rs (rs.getD 0 0)).elim 0 (fun km => km.1) + 1 := by
    show scanMin rs 0 0 (rs.getD 0 0) + 1 = _
    rw [scanMin_eq_scanSel]
    rcases scanSel rs (rs.getD 0 0) with _ | km
    · rfl
    · simp
  refine ⟨?_, ?_, ?_⟩
  · intro h0
    have hnone : scanSel rs (rs.getD 0 0) = none := by
      rw [scanSel_eq_none_iff]
      intro x hx
      rw [h0]
      rintro ⟨hneg | hlt, hpos⟩
      · linarith
      · linarith
    rw [hsel, hnone]
    rfl
  · intro hnp
    have hnone : scanSel rs (rs.getD 0 0) = none := by
      rw [scanSel_eq_none_iff]
      intro x hx
      obtain ⟨j, hj, hjx⟩ := List.getElem_of_mem hx
      rintro ⟨-, hpos⟩
      have hx' : rs.getD j 0 = x := by rw [List.getD_eq_getElem _ 0 hj, hjx]
      exact hnp j hj (hx' ▸ hpos)
    rw [hsel, hnone]
    rfl
  · intro hne hex
    obtain ⟨i₀, hi₀, hi₀pos⟩ := hex
    rcases lt_or_gt_of_ne hne with hneg | hposv
    · -- ratios[0] < 0: every positive ratio is eligible, the scan finds the first minimum
      rcases hscan : scanSel rs (rs.getD 0 0) with _ | km
      · exact absurd ⟨Or.inl hneg, hi₀pos⟩
          (((scanSel_eq_none_iff rs (rs.getD 0 0)).mp hscan) _ (getD_mem hi₀))
      · obtain ⟨hk, hval, hmpos, hmv, hall, hfirst⟩ :=
          scanSel_some_spec rs (rs.getD 0 0) km.1 km.2 hscan
        have hres : lp.select_row col - 1 = km.1 := by rw [hsel, hscan]; simp
        rw [hres]
        refine ⟨hk, by rw [hval]; exact hmpos, ?_, ?_⟩
        · intro j hj hjpos
          rw [hval]
          exact hall j hj hjpos (Or.inl hneg)
        · intro j hj hjpos
          rw [hval]
          exact hfirst j hj hjpos (Or.inl hneg)
    · -- ratios[0] > 0
      rcases hscan : scanSel rs (rs.getD 0 0) with _ | km
      · -- nothing beats the head: row 1 is the first positive minimum
        have hall := (scanSel_eq_none_iff rs (rs.getD 0 0)).mp hscan
        have hres : lp.select_row col - 1 = 0 := by rw [hsel, hscan]; rfl
        rw [hres]
        refine ⟨by omega, hposv, ?_, ?_⟩
        · intro j hj hjpos
          by_contra hlt
          exact hall _ (getD_mem hj) ⟨Or.inr (lt_of_not_le hlt), hjpos⟩
        · intro j hj hjpos
          exact absurd hj (Nat.not_lt_zero j)
      · obtain ⟨hk, hval, hmpos, hmv, hall, hfirst⟩ :=
          scanSel_some_spec rs (rs.getD 0 0) km.1 km.2 hscan
        have hmlt : km.2 < rs.getD 0 0 := by
          rcases hmv with h | h
          · linarith
          · exact h
        have hres : lp.select_row col - 1 = km.1 := by rw [hsel, hscan]; simp
        rw [hres]
        refine ⟨hk, by rw [hval]; exact hmpos, ?_, ?_⟩
        · intro j hj hjpos
          rw [hval]
          by_cases hxv : rs.getD j 0 < rs.getD 0 0
          · exact hall j hj hjpos (Or.inr hxv)
          · linarith
        · intro j hj hjpos
          rw [hval]
          by_cases hxv : rs.getD j 0 < rs.getD 0 0
          · exact hfirst j hj hjpos (Or.inr hxv)
          · linarith

/-- Witness for C4's amended claim at `lpRatio`, column `1`. -/
theorem select_row_spec_witness :
    lpRatio.select_row 1 - 1 < (lpRatio.ratios 1).length ∧
    0 < (lpRatio.ratios 1).getD (lpRatio.select_row 1 - 1) 0 := by
  have h := (select_row_spec lpRatio 1 (by decide) (by decide)
    (by with_unfolding_all decide)).2.2 (by with_unfolding_all decide)
    ⟨0, by with_unfolding_all decide, by with_unfolding_all decide⟩
  exact ⟨h.1, h.2.1⟩

/-! ## C8: constraint-line arity is not validated per line -/

/-- Counterexample to claim C8 as stated: `lines8` has a constraint line
with one coefficient under a two-variable objective, and construction
fails with numpy's reshape `ValueError`, not with `BadFormatError`; and
`lines8b`, whose two constraint lines both have the wrong arity but a
compensating flat total of `4 = 2 × 2`, is accepted without any error. -/
theorem parse_arity_cex :
    parse lines8 = .error .reshapeError ∧ PyError.reshapeError ≠ PyError.badFormat ∧
    parseOk lines8b = true := by
  with_unfolding_all decide

/-- Claim C8 amended: `__init__` never checks the per-line coefficient
count.  Once the mode, the objective coefficients and the constraint loop
have gone through, construction succeeds exactly when the *total* flat
coefficient count equals `rows * len(c)`, and otherwise fails with the
reshape error — `BadFormatError` is reserved for the mode keyword and the
relation token (claim C10). -/
theorem parse_reshape_spec (funcline : List String) (rest : List (List String))
    (mode : Mode) (c avals signs bvals : List ℚ)
    (hm : parseMode funcline = some mode)
    (hc : (funcline.drop 1).mapM pyFloat = some c)
    (hcons : parseConstraints rest = .ok (avals, signs, bvals)) :
    (avals.length = rest.length * c.length →
      parse (funcline :: rest) = .ok (mkLinprog mode c avals signs bvals rest.length)) ∧
    (avals.length ≠ rest.length * c.length →
      parse (funcline :: rest) = .error .reshapeError) := by
  have key : parse (funcline :: rest)
      = if avals.length = rest.length * c.length
        then .ok (mkLinprog mode c avals signs bvals rest.length)
        else .error .reshapeError := by
    simp only [parse, hm, hc, hcons]
  constructor <;> intro h
  · rw [key, if_pos h]
  · rw [key, if_neg h]

/-- Witness for C8's amended claim at `lines8`. -/
theorem parse_reshape_spec_witness :
    parse (["max", "1", "1"] :: [["restrict", "1", "<=", "5"]]) = .error .reshapeError := by
  have h := parse_reshape_spec ["max", "1", "1"] [["restrict", "1", "<=", "5"]]
    Mode.maxMode [1, 1] [1] [1] [5] (by decide) (by with_unfolding_all decide)
    (by with_unfolding_all decide)
  exact h.2 (by decide)

/-! ## C10: the leading constraint-line token is discarded unchecked -/

theorem parseLine_head_irrelevant (t t' : String) (restToks : List String) :
    parseLine (t :: restToks) = parseLine (t' :: restToks) := rfl

theorem parseConstraints_head_irrelevant (pre post : List (List String)) (t t' : String)
    (lineRest : List String) :
    parseConstraints (pre ++ (t :: lineRest) :: post)
      = parseConstraints (pre ++ (t' :: lineRest) :: post) := by
  induction pre with
  | nil =>
    simp only [List.nil_append, parseConstraints]
    rw [parseLine_head_irrelevant t t' lineRest]
  | cons p pre ih =>
    simp only [List.cons_append, parseConstraints, List.append_eq]
    rw [ih]

theorem parseLine_badFormat (toks : List String) (h : parseLine toks = .error .badFormat) :
    2 ≤ (toks.drop 1).length ∧
    (toks.drop 1).getD ((toks.drop 1).length - 2) "" ≠ ">=" ∧
    (toks.drop 1).getD ((toks.drop 1).length - 2) "" ≠ "<=" := by
  simp only [parseLine] at h
  repeat' split at h
  all_goals try simp at h
  rename_i hlen hge hle
  exact ⟨by omega, hge, hle⟩

theorem parseConstraints_badFormat : ∀ (rest : List (List String)),
    parseConstraints rest = .error .badFormat →
    ∃ toks ∈ rest, 2 ≤ (toks.drop 1).length ∧
      (toks.drop 1).getD ((toks.drop 1).length - 2) "" ≠ ">=" ∧
      (toks.drop 1).getD ((toks.drop 1).length - 2) "" ≠ "<="
  | [], h => by simp [parseConstraints] at h
  | toks :: rest, h => by
    rw [parseConstraints] at h
    rcases hline : parseLine toks with e | val <;> rw [hline] at h
    · injection h with he
      subst he
      exact ⟨toks, by simp, parseLine_badFormat toks hline⟩
    · obtain ⟨cs, s, bv⟩ := val
      rcases hrec : parseConstraints rest with e' | triple <;> rw [hrec] at h
      · injection h with he'
        subst he'
        obtain ⟨toks', hmem, hprops⟩ := parseConstraints_badFormat rest hrec
        exact ⟨toks', List.mem_cons_of_mem _ hmem, hprops⟩
      · obtain ⟨avals, signs, bvals⟩ := triple
        cases h

/-- Claim C10: replacing the leading token of any constraint line changes
nothing (the token is dropped by `vals = line.split(' ')[1:]` without
validation), and a `BadFormatError` can only come from an unrecognized
mode keyword on the first line or an unrecognized relation token on a
constraint line. -/
theorem leading_token_ignored :
    (∀ (funcline : List String) (pre post : List (List String)) (t t' : String)
        (lineRest : List String),
      parse (funcline :: (pre ++ (t :: lineRest) :: post))
        = parse (funcline :: (pre ++ (t' :: lineRest) :: post))) ∧
    (∀ lines, parse lines = .error .badFormat →
      parseMode (lines.headD []) = none ∨
        ∃ toks ∈ lines.tail, 2 ≤ (toks.drop 1).length ∧
          (toks.drop 1).getD ((toks.drop 1).length - 2) "" ≠ ">=" ∧
          (toks.drop 1).getD ((toks.drop 1).length - 2) "" ≠ "<=") := by
  constructor
  · intro funcline pre post t t' lineRest
    simp only [parse]
    rw [parseConstraints_head_irrelevant]
    have hlen : (pre ++ (t :: lineRest) :: post).length
        = (pre ++ (t' :: lineRest) :: post).length := by
      simp
    rw [hlen]
  · intro lines h
    match lines with
    | [] => simp [parse] at h
    | funcline :: rest =>
      simp only [parse] at h
      rcases hm : parseMode funcline with _ | mode <;> rw [hm] at h
      · left
        simpa using hm
      · rcases hc : (funcline.drop 1).mapM pyFloat with _ | c <;> rw [hc] at h
        · cases h
        · rcases hcons : parseConstraints rest with e | triple <;> rw [hcons] at h
          · injection h with he
            subst he
            right
            obtain ⟨toks, htoks, hprops⟩ := parseConstraints_badFormat rest hcons
            exact ⟨toks, by simpa using htoks, hprops⟩
          · obtain ⟨avals, signs, bvals⟩ := triple
            by_cases harity : avals.length = rest.length * c.length <;>
              simp [harity] at h

/-- Witness for C10: the token `restrict` against the token `fizz`, and
the `BadFormatError` of `lines10bad` traced to its `!=` relation token. -/
theorem leading_token_ignored_witness :
    parse [["max", "1"], ["restrict", "1", "<=", "1"]]
      = parse [["max", "1"], ["fizz", "1", "<=", "1"]] ∧
    (["restrict", "1", "!=", "2"].drop 1).getD
      ((["restrict", "1", "!=", "2"].drop 1).length - 2) "" ≠ ">=" := by
  obtain ⟨h1, h2⟩ := leading_token_ignored
  refine ⟨h1 ["max", "1"] [] [] "restrict" "fizz" ["1", "<=", "1"], ?_⟩
  rcases h2 lines10bad (by with_unfolding_all decide) with hmode | hex
  · exact absurd hmode (by decide)
  · obtain ⟨toks, hmem, -, hge, -⟩ := hex
    have htoks : toks = ["restrict", "1", "!=", "2"] := by
      simpa [lines10bad] using hmem
    rw [htoks] at hge
    exact hge

/-! ## C9: a reachable state on which `select_pivot` raises -/

/-- Claim C9: the state reached from `lines9` after one driver step is
`lpStall`: `iter_complete()` is false (its objective-row RHS is strictly
positive) while no non-basic column has a positive objective-row entry,
so `candidate_cols` is empty, `random.choice` raises `IndexError`, and
the loop of `main` dies on the uncaught exception instead of completing. -/
theorem select_pivot_stalls :
    parse lines9 = .ok lp9 ∧ lp9.check_feasible = true ∧
    iterStates lp9 zeroRand 1 = some lpStall ∧
    lpStall.iter_complete = false ∧
    0 < rowLast (lpStall.tab.getD 0 []) ∧
    (∀ c ∈ lpStall.nonbasic_cols, ¬ 0 < ent lpStall.tab 0 c) ∧
    lpStall.candidate_cols = [] ∧
    lpStall.select_pivot 0 = none ∧
    runMain lines9 zeroRand = .selectFailed := by
  with_unfolding_all decide

/-! ## C5: the iteration limit -/

/-- The `while` loop of `main`, when no visited state is complete, runs
its counter up to exactly `limit` and reports the state reached after
`limit - 1` pivot applications. -/
theorem mainLoop_limit (lp : Linprog) (rand : ℕ → ℕ) (limit : ℕ) :
    ∀ (j fuel i : ℕ) (s : Linprog), i + j + 1 = limit → j ≤ fuel →
    iterStates lp rand i = some s →
    (∀ k, k < limit → (iterStates lp rand k).map (fun t => t.iter_complete) = some false) →
    mainLoop rand limit fuel s i
      = (iterStates lp rand (limit - 1)).elim MainResult.selectFailed
          (fun t => MainResult.iterLimit t limit) := by
  intro j
  induction j with
  | zero =>
    intro fuel i s hij hjf hi H
    have hs := H i (by omega)
    rw [hi, Option.map_some'] at hs
    injection hs with hs'
    have hlim : limit - 1 = i := by omega
    rw [hlim, hi]
    rw [mainLoop, hs']
    simp only [Bool.false_eq_true, if_false]
    rw [if_pos (by omega : limit ≤ i + 1)]
    have : i + 1 = limit := by omega
    rw [this]
    rfl
  | succ j ih =>
    intro fuel i s hij hjf hi H
    have hs := H i (by omega)
    rw [hi, Option.map_some'] at hs
    injection hs with hs'
    rcases hsel : s.select_pivot (rand i) with _ | rc
    · have hstep : iterStates lp rand (i + 1) = none := by
        simp only [iterStates, hi, hsel]
      have hnext := H (i + 1) (by omega)
      rw [hstep] at hnext
      cases hnext
    · have hstep : iterStates lp rand (i + 1) = some (s.pivot rc.1 rc.2) := by
        simp only [iterStates, hi, hsel]
      match fuel, hjf with
      | f' + 1, _ =>
        rw [mainLoop, hs']
        simp only [Bool.false_eq_true, if_false]
        rw [if_neg (by omega : ¬ limit ≤ i + 1), hsel]
        exact ih f' (i + 1) (s.pivot rc.1 rc.2) (by omega) (by omega) hstep H

/-- Claim C5 amended: when optimality is never reached, `main` stops with
the no-solution report exactly when its counter reaches `10 × n` (`n` the
decision-variable count) — but the pivot of that final iteration is *not*
applied, so the reported state is the one after `10 × n − 1` pivots (for
`n = 2`: after `19` pivots, not `20`). -/
theorem iteration_limit_spec (lines : List (List String)) (rand : ℕ → ℕ) (lp : Linprog)
    (hp : parse lines = .ok lp) (hf : lp.check_feasible = true) (hn : 1 ≤ lp.c.length)
    (H : ∀ k, k < 10 * lp.c.length →
      (iterStates lp rand k).map (fun s => s.iter_complete) = some false) :
    runMain lines rand
      = (iterStates lp rand (10 * lp.c.length - 1)).elim MainResult.selectFailed
          (fun s => MainResult.iterLimit s (10 * lp.c.length)) := by
  have hrun : runMain lines rand
      = mainLoop rand (10 * lp.c.length) (10 * lp.c.length) lp 0 := by
    simp only [runMain, hp, hf, if_true]
  rw [hrun]
  exact mainLoop_limit lp rand (10 * lp.c.length) (10 * lp.c.length - 1)
    (10 * lp.c.length) 0 lp (by omega) (by omega) rfl H

set_option maxHeartbeats 4000000 in
/-- Counterexample to claim C5 as stated: `lines5` is a degenerate `n = 2`
instance that cycles forever under the `zeroRand` draws; the driver fails
with the counter at `20 = 10 × 2`, but the state it reports is the state
after `19` pivots, which differs from the state after `20` pivots — so
exactly `19` pivots, not `20`, are applied before the report. -/
theorem iteration_limit_cex :
    parse lines5 = .ok lp5 ∧
    runMain lines5 zeroRand
      = (iterStates lp5 zeroRand 19).elim MainResult.selectFailed
          (fun s => MainResult.iterLimit s 20) ∧
    (iterStates lp5 zeroRand 19).isSome = true ∧
    iterStates lp5 zeroRand 19 ≠ iterStates lp5 zeroRand 20 ∧
    runMain lines5 zeroRand
      ≠ (iterStates lp5 zeroRand 20).elim MainResult.selectFailed
          (fun s => MainResult.iterLimit s 20) := by
  have hp : parse lines5 = .ok lp5 := by with_unfolding_all decide
  have hf : lp5.check_feasible = true := by with_unfolding_all decide
  have H : ∀ k, k < 20 →
      (iterStates lp5 zeroRand k).map (fun s => s.iter_complete) = some false := by
    with_unfolding_all decide
  have hne : iterStates lp5 zeroRand 19 ≠ iterStates lp5 zeroRand 20 := by
    with_unfolding_all decide
  have hsome : (iterStates lp5 zeroRand 19).isSome = true := by
    with_unfolding_all decide
  have hclen : 10 * lp5.c.length = 20 := rfl
  have hrun : runMain lines5 zeroRand
      = (iterStates lp5 zeroRand 19).elim MainResult.selectFailed
          (fun s => MainResult.iterLimit s 20) := by
    have h1 : runMain lines5 zeroRand
        = mainLoop zeroRand (10 * lp5.c.length) (10 * lp5.c.length) lp5 0 := by
      simp only [runMain, hp, hf, if_true]
    rw [h1, hclen]
    have h2 := mainLoop_limit lp5 zeroRand 20 19 20 0 lp5 (by omega) (by omega) rfl H
    simpa using h2
  refine ⟨hp, hrun, hsome, hne, ?_⟩
  rcases h19 : iterStates lp5 zeroRand 19 with _ | s19
  · rw [h19] at hsome
    cases hsome
  · rcases h20 : iterStates lp5 zeroRand 20 with _ | s20
    · rw [hrun, h19]
      intro hcon
      cases hcon
    · rw [hrun, h19]
      intro hcon
      simp only [Option.elim] at hcon
      injection hcon with hs _
      rw [h19, h20, hs] at hne
      exact hne rfl

set_option maxHeartbeats 4000000 in
/-- Witness for C5's amended claim at `lines5`. -/
theorem iteration_limit_spec_witness :
    runMain lines5 zeroRand
      = (iterStates lp5 zeroRand (10 * lp5.c.length - 1)).elim MainResult.selectFailed
          (fun s => MainResult.iterLimit s (10 * lp5.c.length)) :=
  iteration_limit_spec lines5 zeroRand lp5 (by with_unfolding_all decide)
    (by with_unfolding_all decide) (by decide) (by with_unfolding_all decide)

/-! ## C7: the basic-column invariant -/

theorem find?_eq_some_of_unique (l : List ℕ) (p : ℕ → Bool) (x : ℕ) (hx : x ∈ l)
    (hpx : p x = true) (hu : ∀ y ∈ l, p y = true → y = x) : l.find? p = some x := by
  induction l with
  | nil => simp at hx
  | cons h t ih =>
    by_cases hph : p h = true
    · have hhx := hu h (by simp) hph
      subst hhx
      simp [List.find?, hph]
    · rw [Bool.not_eq_true] at hph
      simp only [List.find?, hph]
      rcases List.mem_cons.mp hx with rfl | hxt
      · exact absurd hpx (by simp [hph])
      · exact ih hxt (fun y hy => hu y (by simp [hy]))

theorem replicate_getD_zero (n m : ℕ) : (List.replicate n (0 : ℚ)).getD m 0 = 0 := by
  rcases Nat.lt_or_ge m n with h | h
  · rw [List.getD_eq_getElem _ _ (by simpa using h)]
    simp
  · rw [List.getD_eq_default _ _ (by simpa using h)]

theorem parse_ok_inv (lines : List (List String)) (lp : Linprog) (h : parse lines = .ok lp) :
    ∃ funcline rest mode c avals signs bvals,
      lines = funcline :: rest ∧
      parseConstraints rest = .ok (avals, signs, bvals) ∧
      avals.length = rest.length * c.length ∧
      lp = mkLinprog mode c avals signs bvals rest.length := by
  match lines with
  | [] => simp [parse] at h
  | funcline :: rest =>
    simp only [parse] at h
    rcases hm : parseMode funcline with _ | mode <;> rw [hm] at h
    · cases h
    · rcases hc : (funcline.drop 1).mapM pyFloat with _ | c <;> rw [hc] at h
      · cases h
      · rcases hcons : parseConstraints rest with e | triple <;> rw [hcons] at h
        · cases h
        · obtain ⟨avals, signs, bvals⟩ := triple
          by_cases harity : avals.length = rest.length * c.length
          · simp only [harity, if_true, Except.ok.injEq] at h
            exact ⟨funcline, rest, mode, c, avals, signs, bvals, rfl, hcons, harity, h.symm⟩
          · simp [harity] at h

theorem parseLine_sign (toks : List String) (cs : List ℚ) (s bv : ℚ)
    (h : parseLine toks = .ok (cs, s, bv)) : s = 1 ∨ s = -1 := by
  simp only [parseLine] at h
  repeat' split at h
  all_goals try cases h
  all_goals norm_num

theorem parseConstraints_facts : ∀ (rest : List (List String)) (avals signs bvals : List ℚ),
    parseConstraints rest = .ok (avals, signs, bvals) →
    signs.length = rest.length ∧ ∀ s ∈ signs, s = 1 ∨ s = -1
  | [], avals, signs, bvals, h => by
    rw [parseConstraints] at h
    injection h with h'
    obtain ⟨-, h2⟩ := Prod.mk.inj h'
    obtain ⟨hs, -⟩ := Prod.mk.inj h2
    subst hs
    simp
  | toks :: rest, avals, signs, bvals, h => by
    rw [parseConstraints] at h
    rcases hline : parseLine toks with e | val <;> rw [hline] at h
    · cases h
    · obtain ⟨cs, s, bv⟩ := val
      rcases hrec : parseConstraints rest with e' | triple <;> rw [hrec] at h
      · cases h
      · obtain ⟨av', sg', bv'⟩ := triple
        injection h with h'
        obtain ⟨-, h2⟩ := Prod.mk.inj h'
        obtain ⟨hs, -⟩ := Prod.mk.inj h2
        subst hs
        obtain ⟨hl1, hmem⟩ := parseConstraints_facts rest av' sg' bv' hrec
        refine ⟨by simp [hl1], ?_⟩
        intro x hx
        rcases List.mem_cons.mp hx with rfl | hxr
        · exact parseLine_sign toks cs x bv hline
        · exact hmem x hxr

/-- Entries of the slack block of a freshly built tableau: the objective
row is zero there, and constraint row `i+1` holds the (sign-scaled)
identity. -/
theorem mkTab_slack_ent (c avals signs bvals : List ℚ) (rows : ℕ)
    (hav : avals.length = rows * c.length) :
    (∀ j, ent (mkTab c avals signs bvals rows) 0 (c.length + 1 + j) = 0) ∧
    (∀ i j, i < rows → j < rows →
      ent (mkTab c avals signs bvals rows) (i + 1) (c.length + 1 + j)
        = if j = i then signs.getD i 0 else 0) := by
  constructor
  · intro j
    unfold ent mkTab
    simp only [List.getD_cons_zero]
    have he : c.length + 1 + j = (c.length + j) + 1 := by omega
    rw [he, List.getD_cons_succ]
    rw [List.getD_append_right _ _ _ _ (by omega)]
    have he2 : c.length + j - c.length = j := by omega
    rw [he2, replicate_getD_zero]
  · intro i j hi hj
    unfold ent mkTab
    rw [List.getD_cons_succ]
    rw [range_map_getD rows _ [] i hi]
    have he : c.length + 1 + j = (c.length + j) + 1 := by omega
    rw [he, List.getD_cons_succ]
    have hAi : ((avals.drop (i * c.length)).take c.length).length = c.length := by
      simp only [List.length_take, List.length_drop, hav]
      have h1 : (i + 1) * c.length ≤ rows * c.length :=
        Nat.mul_le_mul_right _ (by omega)
      have h2 : i * c.length + c.length ≤ rows * c.length := by
        calc i * c.length + c.length = (i + 1) * c.length := by ring
          _ ≤ rows * c.length := h1
      omega
    rw [List.getD_append _ _ _ _ (by
      simp only [List.length_append, hAi, List.length_map, List.length_range]
      omega)]
    rw [List.getD_append_right _ _ _ _ (by rw [hAi]; omega)]
    rw [hAi]
    have he3 : c.length + j - c.length = j := by omega
    rw [he3]
    rw [range_map_getD rows _ 0 j hj]

/-- The invariant holds right after construction: the slack columns are
basic, one per constraint row, with sign `±1` in exactly their own row. -/
theorem basicInv_of_parse (lines : List (List String)) (lp : Linprog)
    (h : parse lines = .ok lp) : BasicInv lp := by
  obtain ⟨funcline, rest, mode, c, avals, signs, bvals, -, hcons, harity, rfl⟩ :=
    parse_ok_inv lines lp h
  obtain ⟨hslen, hsigns⟩ := parseConstraints_facts rest avals signs bvals hcons
  obtain ⟨hObj, hRow⟩ := mkTab_slack_ent c avals signs bvals rest.length harity
  constructor
  · show (Finset.Icc (c.length + 1) (c.length + rest.length)).card = rest.length
    rw [Nat.card_Icc]
    omega
  · refine ⟨fun col => col - c.length, ?_, ?_, ?_⟩
    · intro col hcol
      obtain ⟨hc1, hc2⟩ := Finset.mem_Icc.mp
        (hcol : col ∈ Finset.Icc (c.length + 1) (c.length + rest.length))
      obtain ⟨j, rfl, hjlt⟩ : ∃ j, col = c.length + 1 + j ∧ j < rest.length :=
        ⟨col - c.length - 1, by omega, by omega⟩
      have hfcol : c.length + 1 + j - c.length = j + 1 := by omega
      refine ⟨?_, ?_, ?_, hObj j, ?_⟩
      · show 1 ≤ c.length + 1 + j - c.length
        rw [hfcol]
        omega
      · show c.length + 1 + j - c.length ≤ rest.length
        rw [hfcol]
        omega
      · show ent (mkTab c avals signs bvals rest.length)
          (c.length + 1 + j - c.length) (c.length + 1 + j) ≠ 0
        rw [hfcol, hRow j j hjlt hjlt, if_pos rfl]
        have hmem : signs.getD j 0 ∈ signs := getD_mem (by rw [hslen]; exact hjlt)
        rcases hsigns _ hmem with h1 | h1 <;> rw [h1] <;> norm_num
      · intro i hi1 hi2 hine
        have hine' : i ≠ j + 1 := by
          intro he
          apply hine
          show i = c.length + 1 + j - c.length
          rw [hfcol]
          exact he
        have hi2' : i ≤ rest.length := hi2
        obtain ⟨i', rfl⟩ : ∃ i', i = i' + 1 := ⟨i - 1, by omega⟩
        show ent (mkTab c avals signs bvals rest.length) (i' + 1) (c.length + 1 + j) = 0
        rw [hRow i' j (by omega) hjlt, if_neg (by omega)]
    · intro c₁ h₁ c₂ h₂ hf
      obtain ⟨m₁, m₁'⟩ := Finset.mem_Icc.mp
        (h₁ : c₁ ∈ Finset.Icc (c.length + 1) (c.length + rest.length))
      obtain ⟨m₂, m₂'⟩ := Finset.mem_Icc.mp
        (h₂ : c₂ ∈ Finset.Icc (c.length + 1) (c.length + rest.length))
      have hf' : c₁ - c.length = c₂ - c.length := hf
      omega
    · intro r hr1 hr2
      have hr2' : r ≤ rest.length := hr2
      refine ⟨c.length + r, ?_, ?_⟩
      · show c.length + r ∈ Finset.Icc (c.length + 1) (c.length + rest.length)
        rw [Finset.mem_Icc]
        omega
      · show c.length + r - c.length = r
        omega

/-- The scan-based `basic_cols` update is correct under the invariant for
a pivot on a non-basic column with strictly positive objective-row entry
(`select_pivot`'s guarantee) and nonzero pivot entry in a constraint row:
the invariant is preserved and the entering column takes over the pivot
row. -/
theorem basicInv_pivot (lp : Linprog) (row var : ℕ) (hwf : WF lp) (hinv : BasicInv lp)
    (hrow1 : 1 ≤ row) (hrow : row ≤ lp.rows) (hvar : var ∉ lp.basic_cols)
    (hpos : 0 < ent lp.tab 0 var) (hnz : ent lp.tab row var ≠ 0) :
    BasicInv (lp.pivot row var) := by
  obtain ⟨hcard, f, hprop, hinj, hsurj⟩ := hinv
  obtain ⟨colB, hcolB, hfcolB⟩ := hsurj row hrow1 hrow
  have hrowlt : row < lp.tab.length := by rw [hwf.1]; omega
  have h0lt : (0 : ℕ) < lp.tab.length := by rw [hwf.1]; omega
  have hlen : ∀ i, i < lp.tab.length →
      (lp.tab.getD i []).length = (lp.tab.getD row []).length := by
    intro i hi
    rw [hwf.rowLen hi, hwf.rowLen hrowlt]
  set T := pivotTab lp.tab row var with hT
  have hself : ∀ j, ent T row j = ent lp.tab row j * (1 / ent lp.tab row var) :=
    ent_pivotTab_self lp.tab row var hrowlt
  have hother : ∀ i, i < lp.tab.length → i ≠ row → ∀ j,
      ent T i j = ent lp.tab i j - ent lp.tab i var * (ent lp.tab row j * (1 / ent lp.tab row var)) :=
    fun i hi hne => ent_pivotTab_ne lp.tab row var i hi hne (hlen i hi)
  have hone : ent lp.tab row var * (1 / ent lp.tab row var) = 1 := mul_one_div_cancel hnz
  -- the unique basic column with a nonzero updated objective entry is `colB`
  have hobj : ∀ c ∈ lp.basic_cols, c ≠ colB → ent T 0 c = 0 := by
    intro c hc hne
    obtain ⟨hf1, hf2, hfnz, hfob, hfzero⟩ := hprop c hc
    have hfcrow : f c ≠ row := by
      intro he
      exact hne (hinj c hc colB hcolB (by rw [he, hfcolB]))
    have hrowc : ent lp.tab row c = 0 :=
      hfzero row hrow1 hrow (fun he => hfcrow he.symm)
    rw [hother 0 h0lt (by omega) c, hfob, hrowc]
    ring
  have hobjB : ent T 0 colB ≠ 0 := by
    obtain ⟨-, -, hfnzB, hfobB, -⟩ := hprop colB hcolB
    have hrowB : ent lp.tab row colB ≠ 0 := by
      rw [hfcolB] at hfnzB
      exact hfnzB
    rw [hother 0 h0lt (by omega) colB, hfobB]
    have hx : ent lp.tab 0 var * (ent lp.tab row colB * (1 / ent lp.tab row var)) ≠ 0 :=
      mul_ne_zero (ne_of_gt hpos) (mul_ne_zero hrowB (one_div_ne_zero hnz))
    intro hcon
    apply hx
    linarith
  have hfind : (lp.basic_cols.sort (· ≤ ·)).find? (fun c => decide (ent T 0 c ≠ 0))
      = some colB := by
    apply find?_eq_some_of_unique
    · exact (Finset.mem_sort _).mpr hcolB
    · simpa using hobjB
    · intro y hy hpy
      by_contra hne
      rw [decide_eq_true_eq] at hpy
      exact hpy (hobj y ((Finset.mem_sort _).mp hy) hne)
  have hbasic' : (lp.pivot row var).basic_cols = insert var (lp.basic_cols.erase colB) := by
    rw [pivot_basic]
    unfold updateBasic
    rw [← hT, hfind]
  have hvarB : var ≠ colB := fun he => hvar (he ▸ hcolB)
  have hmem' : ∀ c, c ∈ (lp.pivot row var).basic_cols ↔
      c = var ∨ (c ∈ lp.basic_cols ∧ c ≠ colB) := by
    intro c
    rw [hbasic', Finset.mem_insert, Finset.mem_erase]
    tauto
  constructor
  · rw [hbasic', pivot_rows]
    rw [Finset.card_insert_of_not_mem (fun hv => hvar (Finset.mem_of_mem_erase hv))]
    rw [Finset.card_erase_of_mem hcolB, hcard]
    omega
  · have hf'var : (fun c => if c = var then row else f c) var = row := by simp
    have hf'other : ∀ c, c ≠ var → (fun c => if c = var then row else f c) c = f c := by
      intro c hc
      simp [hc]
    refine ⟨fun c => if c = var then row else f c, ?_, ?_, ?_⟩
    · intro c hc
      rcases (hmem' c).mp hc with hceq | ⟨hcb, hcne⟩
      · -- the entering column: basic in `row`
        rw [hceq, hf'var]
        refine ⟨hrow1, ?_, ?_, ?_, ?_⟩
        · rw [pivot_rows]
          exact hrow
        · rw [pivot_tab, ← hT, hself var, hone]
          norm_num
        · rw [pivot_tab, ← hT, hother 0 h0lt (by omega) var, hone]
          ring
        · intro i hi1 hi2 hine
          rw [pivot_rows] at hi2
          have hilt : i < lp.tab.length := by rw [hwf.1]; omega
          rw [pivot_tab, ← hT, hother i hilt hine var, hone]
          ring
      · -- a surviving basic column is untouched
        have hcvar : c ≠ var := fun he => hvar (he ▸ hcb)
        rw [hf'other c hcvar]
        obtain ⟨hf1, hf2, hfnz, hfob, hfzero⟩ := hprop c hcb
        have hfcrow : f c ≠ row := by
          intro he
          exact hcne (hinj c hcb colB hcolB (by rw [he, hfcolB]))
        have hrowc : ent lp.tab row c = 0 :=
          hfzero row hrow1 hrow (fun he => hfcrow he.symm)
        have hfclt : f c < lp.tab.length := by rw [hwf.1]; omega
        refine ⟨hf1, ?_, ?_, ?_, ?_⟩
        · rw [pivot_rows]
          exact hf2
        · rw [pivot_tab, ← hT, hother (f c) hfclt hfcrow c, hrowc]
          intro hcon
          apply hfnz
          linarith
        · rw [pivot_tab, ← hT]
          exact hobj c hcb hcne
        · intro i hi1 hi2 hine
          rw [pivot_rows] at hi2
          have hilt : i < lp.tab.length := by rw [hwf.1]; omega
          by_cases hir : i = row
          · subst hir
            rw [pivot_tab, ← hT, hself c, hrowc]
            ring
          · rw [pivot_tab, ← hT, hother i hilt hir c, hrowc,
              hfzero i hi1 hi2 hine]
            ring
    · intro c₁ h₁ c₂ h₂ hf12
      rcases (hmem' c₁).mp h₁ with hceq₁ | ⟨hb₁, hne₁⟩ <;>
        rcases (hmem' c₂).mp h₂ with hceq₂ | ⟨hb₂, hne₂⟩
      · rw [hceq₁, hceq₂]
      · rw [hceq₁, hf'var, hf'other c₂ (fun he => hvar (he ▸ hb₂))] at hf12
        exact absurd (hinj c₂ hb₂ colB hcolB (by rw [← hf12, hfcolB])) hne₂
      · rw [hceq₂, hf'other c₁ (fun he => hvar (he ▸ hb₁)), hf'var] at hf12
        exact absurd (hinj c₁ hb₁ colB hcolB (by rw [hf12, hfcolB])) hne₁
      · rw [hf'other c₁ (fun he => hvar (he ▸ hb₁)),
          hf'other c₂ (fun he => hvar (he ▸ hb₂))] at hf12
        exact hinj c₁ hb₁ c₂ hb₂ hf12
    · intro r hr1 hr2
      rw [pivot_rows] at hr2
      by_cases hrr : r = row
      · exact ⟨var, (hmem' var).mpr (Or.inl rfl), by rw [hf'var, hrr]⟩
      · obtain ⟨c, hcb, hfc⟩ := hsurj r hr1 hr2
        have hcne : c ≠ colB := by
          intro he
          rw [he, hfcolB] at hfc
          exact hrr hfc.symm
        have hcvar : c ≠ var := fun he => hvar (he ▸ hcb)
        exact ⟨c, (hmem' c).mpr (Or.inr ⟨hcb, hcne⟩), by rw [hf'other c hcvar]; exact hfc⟩

/-- Counterexample to claim C7 as stated: `pivot(1, 1)` on `lp7` (the
tableau of `max 0 / restrict 1 <= 1`) is a legal pivot call — its pivot
entry is nonzero — but the entering column's objective-row entry is `0`,
so after the row reduction the leaving-column scan finds no basic column
with a nonzero objective-row entry, removes nothing, and `basic_cols`
ends up with `2` columns against `rows = 1`. -/
theorem basic_inv_cex :
    parse lines7 = .ok lp7 ∧ ent lp7.tab 1 1 ≠ 0 ∧
    (lp7.pivot 1 1).basic_cols.card = 2 ∧ (lp7.pivot 1 1).rows = 1 ∧ (2 : ℕ) ≠ 1 := by
  with_unfolding_all decide

/-- Claim C7 amended: the basic-column invariant (exactly `rows` columns,
one responsible per constraint row, nonzero in exactly its own row, zero
objective-row entry) holds immediately after construction, and is
preserved by every `pivot(row, var)` whose entering column is non-basic
with a strictly positive objective-row entry and a nonzero pivot entry in
a constraint row — the situation `select_pivot` guarantees.  An arbitrary
`pivot` call can break it (see the counterexample). -/
theorem basic_inv_spec :
    (∀ (lines : List (List String)) (lp : Linprog), parse lines = .ok lp → BasicInv lp) ∧
    (∀ (lp : Linprog) (row var : ℕ), WF lp → BasicInv lp → 1 ≤ row → row ≤ lp.rows →
      var ∉ lp.basic_cols → 0 < ent lp.tab 0 var → ent lp.tab row var ≠ 0 →
      BasicInv (lp.pivot row var)) :=
  ⟨basicInv_of_parse, fun lp row var hwf hinv h1 h2 h3 h4 h5 =>
    basicInv_pivot lp row var hwf hinv h1 h2 h3 h4 h5⟩

/-- Witness for C7's amended claim: the construction invariant at `lp9`
and its preservation across the driver's first pivot there. -/
theorem basic_inv_spec_witness : BasicInv (lp9.pivot 1 1) := by
  obtain ⟨hinit, hpres⟩ := basic_inv_spec
  exact hpres lp9 1 1 (by decide) (hinit lines9 lp9 (by with_unfolding_all decide))
    (by decide) (by decide) (by with_unfolding_all decide) (by with_unfolding_all decide)
    (by with_unfolding_all decide)

end Simplex
